import Mathlib

/-!
Verification of the padalayai retrieval engine against its specification.

Texts are modelled as lists of characters; JavaScript string primitives
(slice, trim, lastIndexOf, split) are embedded as executable functions on
`List Char`.  Machine arithmetic (the 32-bit hash) is modelled on `Int`
with explicit wrapping.  Floating-point quantities (embeddings, cosine
similarity, confidence) are modelled over the reals, with the IEEE NaN
outcome of a zero division represented by `Option.none`.
-/

namespace Padalayai

/-- Whitespace characters recognised by the JavaScript trim used here. -/
def isWsChar (c : Char) : Bool :=
  c = ' ' || c = '\n' || c = '\t' || c = '\r'

/-- JavaScript String.prototype.trim on a character list. -/
def jsTrim (s : List Char) : List Char :=
  ((s.dropWhile isWsChar).reverse.dropWhile isWsChar).reverse

/-- JavaScript String.prototype.slice (nonnegative indices). -/
def jsSlice (s : List Char) (a b : Nat) : List Char :=
  (s.take b).drop a

/-- Does the pattern occur in s starting exactly at index i? -/
def occursAt (s pat : List Char) (i : Nat) : Bool :=
  (s.drop i).take pat.length = pat

/-- JavaScript String.prototype.lastIndexOf pat fromIdx : the largest start
index not exceeding fromIdx at which pat occurs, if any. -/
def lastIndexOfFrom (s pat : List Char) (fromIdx : Nat) : Option Nat :=
  (List.range (fromIdx + 1)).reverse.find? (fun i => occursAt s pat i)

/-- JavaScript String.prototype.split on the newline character. -/
def splitNL : List Char → List (List Char)
  | [] => [[]]
  | c :: rest =>
    let r := splitNL rest
    if c = '\n' then [] :: r
    else
      match r with
      | [] => [[c]]
      | h :: t => (c :: h) :: t

/-- Lowercasing of ASCII letters, as applied by toLowerCase. -/
def jsToLower (c : Char) : Char :=
  if 'A' ≤ c ∧ c ≤ 'Z' then Char.ofNat (c.toNat + 32) else c

/-- Word characters of the regular expression class w: letters, digits,
underscore (on the lowercased text only lowercase letters appear). -/
def isWordChar (c : Char) : Bool :=
  c.isAlphanum || c = '_'

/-- Accumulator pass extracting maximal runs of word characters. -/
def wordRunsAux : List Char → List Char → List (List Char)
  | cur, [] => if cur = [] then [] else [cur.reverse]
  | cur, c :: rest =>
    if isWordChar c then wordRunsAux (c :: cur) rest
    else (if cur = [] then [] else [cur.reverse]) ++ wordRunsAux [] rest

/-- The word tokens of a text: lowercase it, then take the maximal runs of
word characters, mirroring text.toLowerCase().match(word-runs). -/
def tokenize (s : List Char) : List (List Char) :=
  wordRunsAux [] (s.map jsToLower)

/-! ## Chunker: DocumentProcessor.chunkText -/

/-- The ordered separator preference list of chunkText. -/
def separators : List (List Char) :=
  [['\n', '\n'], ['\n'], ['.', ' '], [' ']]

/-- The backward separator scan of chunkText: the first separator in
preference order whose last occurrence at or before e lies strictly past
the half-window point start + chunkSize / 2 wins; the cut is placed just
after that separator occurrence.  The comparison lastIndex > start +
chunkSize * 0.5 is expressed over naturals as 2 * li > 2 * start +
chunkSize. -/
def findBreak (text : List Char) (chunkSize start e : Nat) : Option Nat :=
  (separators.find? (fun sep =>
    match lastIndexOfFrom text sep e with
    | some li => decide (2 * li > 2 * start + chunkSize)
    | none => false)).bind (fun sep =>
      (lastIndexOfFrom text sep e).map (fun li => li + sep.length))

/-- The end position selected for the window starting at start: the raw
window edge min (start + chunkSize) text.length, replaced by the preferred
break point when the edge is interior and a break is found. -/
def chunkEnd (text : List Char) (chunkSize start : Nat) : Nat :=
  if min (start + chunkSize) text.length < text.length then
    match findBreak text chunkSize start (min (start + chunkSize) text.length) with
    | some b => b
    | none => min (start + chunkSize) text.length
  else min (start + chunkSize) text.length

/-- The start position of the next window: max of the overlap advance and
the cut point (the overlap advance saturates at zero exactly where the
JavaScript value would be negative and hence lose the max anyway). -/
def chunkNextStart (text : List Char) (chunkSize overlap start : Nat) : Nat :=
  max (start + chunkSize - overlap) (chunkEnd text chunkSize start)

theorem findBreak_gt_start (text : List Char) (chunkSize start e b : Nat)
    (hb : findBreak text chunkSize start e = some b) : start < b := by
  unfold findBreak at hb
  rw [Option.bind_eq_some] at hb
  obtain ⟨sep, hfind, hmap⟩ := hb
  rw [Option.map_eq_some'] at hmap
  obtain ⟨li, hli, hbe⟩ := hmap
  have hmem := List.find?_some hfind
  rw [hli] at hmem
  simp only [decide_eq_true_eq] at hmem
  omega

theorem chunkEnd_gt_start (text : List Char) (chunkSize start : Nat)
    (hcs : 0 < chunkSize) (hlt : start < text.length) :
    start < chunkEnd text chunkSize start := by
  unfold chunkEnd
  split
  · rename_i hc
    cases hfb : findBreak text chunkSize start (min (start + chunkSize) text.length) with
    | some b => exact findBreak_gt_start _ _ _ _ _ hfb
    | none =>
      show start < min (start + chunkSize) text.length
      omega
  · omega

theorem chunkNextStart_gt_start (text : List Char) (chunkSize overlap start : Nat)
    (hcs : 0 < chunkSize) (hlt : start < text.length) :
    start < chunkNextStart text chunkSize overlap start := by
  have := chunkEnd_gt_start text chunkSize start hcs hlt
  unfold chunkNextStart
  omega

/-- The windowing loop of chunkText: emit the trimmed window (unless empty
after trimming) and continue at the advanced start. -/
def chunkLoop (text : List Char) (chunkSize overlap : Nat) (hcs : 0 < chunkSize)
    (start : Nat) : List (List Char) :=
  if h : start < text.length then
    let e := chunkEnd text chunkSize start
    let chunk := jsTrim (jsSlice text start e)
    let rest := chunkLoop text chunkSize overlap hcs
      (chunkNextStart text chunkSize overlap start)
    if chunk = [] then rest else chunk :: rest
  else []
termination_by text.length - start
decreasing_by
  have := chunkNextStart_gt_start text chunkSize overlap start hcs h
  omega

/-- DocumentProcessor.chunkText: a text no longer than chunkSize is
returned whole as a single chunk; otherwise the windowing loop runs. -/
def chunkText (text : List Char) (chunkSize overlap : Nat) (hcs : 0 < chunkSize) :
    List (List Char) :=
  if text.length ≤ chunkSize then [text]
  else chunkLoop text chunkSize overlap hcs 0

/-! ## Local fallback embedding: RAGService.simpleHash and
RAGService.generateSimpleEmbedding -/

/-- Wrapping of a mathematical integer to the signed 32-bit range, as the
JavaScript bitwise operators apply it. -/
def toInt32 (n : Int) : Int :=
  (n + 2 ^ 31) % 2 ^ 32 - 2 ^ 31

/-- RAGService.simpleHash: the shift-subtract-add rolling hash over the
UTF-16 code units of the string, wrapped to 32 bits at each step. -/
def simpleHash (s : List Char) : Int :=
  s.foldl (fun h c => toInt32 (toInt32 (h * 32) - h + c.toNat)) 0

/-- The bucket index of a word: absolute value of its hash, modulo the
vector dimension. -/
def hashPos (w : List Char) (dimensions : Nat) : Nat :=
  (simpleHash w).natAbs % dimensions

/-- In-place accumulation embedding.at(i) += v of the source, as a pure
list update. -/
def addAt : List ℝ → Nat → ℝ → List ℝ
  | [], _, _ => []
  | x :: xs, 0, v => (x + v) :: xs
  | x :: xs, i + 1, v => x :: addAt xs i v

/-- Sum of squares accumulated exactly as the source reduce does. -/
def sumSq (v : List ℝ) : ℝ :=
  v.foldl (fun s x => s + x * x) 0

/-- The accumulation stage of RAGService.generateSimpleEmbedding: for each
word occurrence, add 1 / sqrt(wordCount) into the hashed bucket of a
zero-initialised vector of the requested dimension. -/
noncomputable def rawEmbedding (text : List Char) (dimensions : Nat) : List ℝ :=
  (tokenize text).foldl
    (fun e w => addAt e (hashPos w dimensions) (1 / Real.sqrt (tokenize text).length))
    (List.replicate dimensions (0 : ℝ))

/-- RAGService.generateSimpleEmbedding: the accumulated vector,
L2-normalized when its magnitude is positive and mapped to all zeros
otherwise. -/
noncomputable def generateSimpleEmbedding (text : List Char) (dimensions : Nat) :
    List ℝ :=
  (rawEmbedding text dimensions).map
    (fun val => if 0 < Real.sqrt (sumSq (rawEmbedding text dimensions)) then
        val / Real.sqrt (sumSq (rawEmbedding text dimensions)) else 0)

theorem addAt_length (e : List ℝ) (i : Nat) (v : ℝ) :
    (addAt e i v).length = e.length := by
  induction e generalizing i with
  | nil => rfl
  | cons x xs ih => cases i <;> simp [addAt, ih]

theorem addAt_sum (e : List ℝ) (i : Nat) (v : ℝ) (h : i < e.length) :
    (addAt e i v).sum = e.sum + v := by
  induction e generalizing i with
  | nil => simp at h
  | cons x xs ih =>
    cases i with
    | zero => simp [addAt]; ring
    | succ n =>
      have := ih n (by simpa using h)
      simp [addAt, this]
      ring

theorem addAt_nonneg (e : List ℝ) (i : Nat) (v : ℝ)
    (he : ∀ x ∈ e, 0 ≤ x) (hv : 0 ≤ v) :
    ∀ x ∈ addAt e i v, 0 ≤ x := by
  induction e generalizing i with
  | nil => intro x hx; simp [addAt] at hx
  | cons y ys ih =>
    cases i with
    | zero =>
      intro x hx
      simp only [addAt, List.mem_cons] at hx
      rcases hx with hx | hx
      · exact hx ▸ add_nonneg (he y (by simp)) hv
      · exact he x (by simp [hx])
    | succ n =>
      intro x hx
      simp only [addAt, List.mem_cons] at hx
      rcases hx with hx | hx
      · exact hx ▸ he y (by simp)
      · exact ih n (fun z hz => he z (by simp [hz])) x hx

theorem sumSq_eq_sum_map (v : List ℝ) :
    sumSq v = (v.map (fun x => x * x)).sum := by
  have key : ∀ (w : List ℝ) (s : ℝ),
      w.foldl (fun a x => a + x * x) s = s + (w.map (fun x => x * x)).sum := by
    intro w
    induction w with
    | nil => intro s; simp
    | cons x xs ih => intro s; simp [ih]; ring
  simpa [sumSq] using key v 0

theorem sumSq_nonneg (v : List ℝ) : 0 ≤ sumSq v := by
  rw [sumSq_eq_sum_map]
  apply List.sum_nonneg
  intro x hx
  obtain ⟨y, _, rfl⟩ := List.mem_map.mp hx
  exact mul_self_nonneg y

theorem sumSq_replicate_zero (n : Nat) : sumSq (List.replicate n (0 : ℝ)) = 0 := by
  rw [sumSq_eq_sum_map]
  simp

theorem sumSq_pos (v : List ℝ) (hnn : ∀ x ∈ v, 0 ≤ x) (hsum : 0 < v.sum) :
    0 < sumSq v := by
  rw [sumSq_eq_sum_map]
  induction v with
  | nil => simp at hsum
  | cons x xs ih =>
    simp only [List.sum_cons] at hsum
    simp only [List.map_cons, List.sum_cons]
    have hxs : 0 ≤ (xs.map fun x => x * x).sum := by
      apply List.sum_nonneg
      intro z hz
      obtain ⟨y, _, rfl⟩ := List.mem_map.mp hz
      exact mul_self_nonneg y
    rcases lt_or_eq_of_le (hnn x (by simp)) with hx | hx
    · nlinarith
    · have hxsum : 0 < xs.sum := by rw [← hx] at hsum; simpa using hsum
      have := ih (fun z hz => hnn z (by simp [hz])) hxsum
      nlinarith [mul_self_nonneg x]

theorem sumSq_map_div (v : List ℝ) (m : ℝ) (hm : m ≠ 0) :
    sumSq (v.map (fun x => x / m)) = sumSq v / (m * m) := by
  rw [sumSq_eq_sum_map, sumSq_eq_sum_map]
  induction v with
  | nil => simp
  | cons x xs ih =>
    simp only [List.map_cons, List.sum_cons]
    rw [ih]
    field_simp

theorem foldl_addAt_length (d : Nat) (c : ℝ) (ws : List (List Char)) :
    ∀ e : List ℝ, (ws.foldl (fun e w => addAt e (hashPos w d) c) e).length
      = e.length := by
  induction ws with
  | nil => intro e; rfl
  | cons w ws ih => intro e; rw [List.foldl_cons, ih, addAt_length]

theorem foldl_addAt_sum (d : Nat) (hd : 0 < d) (c : ℝ) (ws : List (List Char)) :
    ∀ e : List ℝ, e.length = d →
      (ws.foldl (fun e w => addAt e (hashPos w d) c) e).sum
        = e.sum + ws.length * c := by
  induction ws with
  | nil => intro e _; simp
  | cons w ws ih =>
    intro e he
    rw [List.foldl_cons, ih _ (by rw [addAt_length]; exact he)]
    rw [addAt_sum _ _ _ (by rw [he]; exact Nat.mod_lt _ hd)]
    push_cast [List.length_cons]
    ring

theorem foldl_addAt_nonneg (d : Nat) (c : ℝ) (hc : 0 ≤ c) (ws : List (List Char)) :
    ∀ e : List ℝ, (∀ x ∈ e, 0 ≤ x) →
      ∀ x ∈ ws.foldl (fun e w => addAt e (hashPos w d) c) e, 0 ≤ x := by
  induction ws with
  | nil => intro e he; exact he
  | cons w ws ih => intro e he; exact ih _ (addAt_nonneg _ _ _ he hc)

theorem rawEmbedding_length (text : List Char) (dimensions : Nat) :
    (rawEmbedding text dimensions).length = dimensions := by
  unfold rawEmbedding
  rw [foldl_addAt_length, List.length_replicate]

theorem rawEmbedding_sumSq_pos (text : List Char) (dimensions : Nat)
    (hd : 0 < dimensions) (hw : tokenize text ≠ []) :
    0 < sumSq (rawEmbedding text dimensions) := by
  have hn : 0 < ((tokenize text).length : ℝ) := by
    have := List.length_pos.mpr hw
    exact_mod_cast this
  have hsqrt : 0 < Real.sqrt (tokenize text).length := Real.sqrt_pos.mpr hn
  have hc : 0 < 1 / Real.sqrt (tokenize text).length := by positivity
  apply sumSq_pos
  · exact foldl_addAt_nonneg dimensions _ hc.le _ _ (by simp)
  · unfold rawEmbedding
    rw [foldl_addAt_sum dimensions hd _ _ _ (List.length_replicate _ _)]
    simp only [List.sum_replicate, smul_zero, zero_add]
    have hlen : 0 < ((tokenize text).length : ℝ) := hn
    positivity

/-- Claim C8: the local fallback embedding is claimed to have unit L2 norm
for every non-empty input string.  It fails: a non-empty string containing
no word characters (here three exclamation marks) tokenizes to no words,
so the accumulated vector is all zeros, the magnitude guard maps it to all
zeros, and the L2 norm is 0, not 1. -/
theorem generateSimpleEmbedding_counterexample :
    (['!', '!', '!'] : List Char) ≠ [] ∧
    Real.sqrt (sumSq (generateSimpleEmbedding ['!', '!', '!'] 384)) = 0 ∧
    (0 : ℝ) ≠ 1 := by
  have htok : tokenize ['!', '!', '!'] = [] := by decide
  have hraw : rawEmbedding ['!', '!', '!'] 384 = List.replicate 384 (0 : ℝ) := by
    unfold rawEmbedding
    rw [htok]
    rfl
  have hzero : generateSimpleEmbedding ['!', '!', '!'] 384
      = List.replicate 384 (0 : ℝ) := by
    unfold generateSimpleEmbedding
    rw [hraw, sumSq_replicate_zero, Real.sqrt_zero, List.map_replicate]
    simp
  refine ⟨by simp, ?_, by norm_num⟩
  rw [hzero, sumSq_replicate_zero, Real.sqrt_zero]

/-- Claim C8 (amended): the local fallback embedding is a pure function of
the input text (it is defined as one), always returns a vector of the
configured dimension, and has L2 norm exactly 1 whenever the text contains
at least one word token; for texts with no word characters (including some
non-empty texts) it returns the all-zero vector instead. -/
theorem generateSimpleEmbedding_spec (text : List Char) (dimensions : Nat)
    (hd : 0 < dimensions) :
    (generateSimpleEmbedding text dimensions).length = dimensions ∧
    (tokenize text ≠ [] →
      Real.sqrt (sumSq (generateSimpleEmbedding text dimensions)) = 1) := by
  constructor
  · unfold generateSimpleEmbedding
    rw [List.length_map, rawEmbedding_length]
  · intro hw
    have hpos := rawEmbedding_sumSq_pos text dimensions hd hw
    have hm : 0 < Real.sqrt (sumSq (rawEmbedding text dimensions)) :=
      Real.sqrt_pos.mpr hpos
    unfold generateSimpleEmbedding
    have hfun : (fun val => if 0 < Real.sqrt (sumSq (rawEmbedding text dimensions))
        then val / Real.sqrt (sumSq (rawEmbedding text dimensions)) else 0)
        = fun val : ℝ => val / Real.sqrt (sumSq (rawEmbedding text dimensions)) := by
      funext val
      rw [if_pos hm]
    rw [hfun, sumSq_map_div _ _ hm.ne.symm,
      Real.mul_self_sqrt (sumSq_nonneg _), div_self hpos.ne.symm, Real.sqrt_one]

theorem generateSimpleEmbedding_spec_witness :
    (generateSimpleEmbedding ['h', 'i'] 384).length = 384 ∧
    Real.sqrt (sumSq (generateSimpleEmbedding ['h', 'i'] 384)) = 1 :=
  ⟨(generateSimpleEmbedding_spec ['h', 'i'] 384 (by norm_num)).1,
   (generateSimpleEmbedding_spec ['h', 'i'] 384 (by norm_num)).2 (by decide)⟩

/-! ## Cosine similarity: InMemoryVectorStore.cosineSimilarity

The source accumulates the dot product and the two squared norms in one
index loop; these are embedded as the pairing dotList, with dotList a a
playing the role of the accumulated squared norm.  The final division
dotProduct / (sqrt(normA) * sqrt(normB)) is an IEEE double division: when
the denominator is zero the numerator is forced to zero as well, so the
JavaScript result is NaN, modelled here as Option.none. -/

def dotList : List ℝ → List ℝ → ℝ
  | x :: xs, y :: ys => x * y + dotList xs ys
  | _, _ => 0

noncomputable def cosineSimilarity (a b : List ℝ) : Option ℝ :=
  if a.length ≠ b.length then some 0
  else if Real.sqrt (dotList a a) * Real.sqrt (dotList b b) = 0 then none
  else some (dotList a b / (Real.sqrt (dotList a a) * Real.sqrt (dotList b b)))

theorem dotList_self_nonneg (a : List ℝ) : 0 ≤ dotList a a := by
  induction a with
  | nil => simp [dotList]
  | cons x xs ih =>
    simp only [dotList]
    nlinarith [mul_self_nonneg x]

theorem dotList_nonneg (a b : List ℝ)
    (ha : ∀ x ∈ a, 0 ≤ x) (hb : ∀ x ∈ b, 0 ≤ x) : 0 ≤ dotList a b := by
  induction a generalizing b with
  | nil => simp [dotList]
  | cons x xs ih =>
    cases b with
    | nil => simp [dotList]
    | cons y ys =>
      simp only [dotList]
      have h1 : 0 ≤ x * y :=
        mul_nonneg (ha x (by simp)) (hb y (by simp))
      have h2 := ih ys (fun z hz => ha z (by simp [hz])) (fun z hz => hb z (by simp [hz]))
      linarith

/-- Cauchy-Schwarz for the list pairing, squared form. -/
theorem dotList_sq_le (a b : List ℝ) :
    dotList a b * dotList a b ≤ dotList a a * dotList b b := by
  induction a generalizing b with
  | nil => simp [dotList]
  | cons x xs ih =>
    cases b with
    | nil => simp [dotList]
    | cons y ys =>
      simp only [dotList]
      have h1 := ih ys
      have hA := dotList_self_nonneg xs
      have hB := dotList_self_nonneg ys
      set A := dotList xs xs with hAdef
      set B := dotList ys ys with hBdef
      set d := dotList xs ys with hddef
      rcases eq_or_lt_of_le hB with hB0 | hBpos
      · have hd0 : d = 0 := by
          have hdd : d * d ≤ 0 := by rw [← hB0] at h1; simpa using h1
          have := mul_self_nonneg d
          have : d * d = 0 := le_antisymm hdd this
          exact mul_self_eq_zero.mp this
        rw [hd0, ← hB0]
        nlinarith [mul_nonneg hA (mul_self_nonneg y)]
      · have cert : 0 ≤ (x * B - y * d) ^ 2 + (A * B - d * d) * (y * y + B) := by
          have h2 : 0 ≤ A * B - d * d := by linarith
          have h3 : 0 ≤ y * y + B := by nlinarith [mul_self_nonneg y]
          positivity
        have key : B * ((x * x + A) * (y * y + B) - (x * y + d) * (x * y + d))
            = (x * B - y * d) ^ 2 + (A * B - d * d) * (y * y + B) := by ring
        nlinarith [cert, key, hBpos]

theorem dotList_comm (a b : List ℝ) : dotList a b = dotList b a := by
  induction a generalizing b with
  | nil => cases b <;> simp [dotList]
  | cons x xs ih =>
    cases b with
    | nil => simp [dotList]
    | cons y ys => simp only [dotList]; rw [ih]; ring

/-- Claim C4: the specification claims cosine similarity of a zero vector
is 0, not NaN, and that every returned similarity lies in the unit
interval.  The code divides by sqrt(normA) * sqrt(normB) with no guard, so
for the zero vector the division is 0 / 0, an IEEE NaN (modelled none),
not 0. -/
theorem cosineSimilarity_zero_counterexample :
    cosineSimilarity [(0 : ℝ)] [(0 : ℝ)] = none ∧
    (none : Option ℝ) ≠ some 0 := by
  constructor
  · unfold cosineSimilarity
    rw [if_neg (by simp)]
    rw [if_pos]
    have : dotList [(0 : ℝ)] [(0 : ℝ)] = 0 := by simp [dotList]
    rw [this, Real.sqrt_zero, zero_mul]
  · simp

/-- Claim C4 (amended): for equal-length vectors with nonnegative entries
and nonzero squared norms the similarity is some value in the unit
interval; the self-similarity of any vector with nonzero squared norm is
exactly 1; but whenever either squared norm is zero (in particular for a
zero vector) the result is NaN (none), not 0. -/
theorem cosineSimilarity_spec :
    (∀ a b : List ℝ, a.length = b.length →
      (∀ x ∈ a, 0 ≤ x) → (∀ x ∈ b, 0 ≤ x) →
      dotList a a ≠ 0 → dotList b b ≠ 0 →
      ∃ s, cosineSimilarity a b = some s ∧ 0 ≤ s ∧ s ≤ 1) ∧
    (∀ a : List ℝ, dotList a a ≠ 0 → cosineSimilarity a a = some 1) ∧
    (∀ a b : List ℝ, a.length = b.length → dotList a a = 0 →
      cosineSimilarity a b = none) := by
  refine ⟨?_, ?_, ?_⟩
  · intro a b hlen ha hb hA hB
    have hApos : 0 < dotList a a := lt_of_le_of_ne (dotList_self_nonneg a) (Ne.symm hA)
    have hBpos : 0 < dotList b b := lt_of_le_of_ne (dotList_self_nonneg b) (Ne.symm hB)
    have hden : 0 < Real.sqrt (dotList a a) * Real.sqrt (dotList b b) :=
      mul_pos (Real.sqrt_pos.mpr hApos) (Real.sqrt_pos.mpr hBpos)
    refine ⟨dotList a b / (Real.sqrt (dotList a a) * Real.sqrt (dotList b b)), ?_, ?_, ?_⟩
    · unfold cosineSimilarity
      rw [if_neg (by simp [hlen]), if_neg hden.ne.symm]
    · exact div_nonneg (dotList_nonneg a b ha hb) hden.le
    · rw [div_le_one hden]
      have hsq : dotList a b ^ 2 ≤ dotList a a * dotList b b := by
        have := dotList_sq_le a b
        nlinarith
      calc dotList a b ≤ Real.sqrt (dotList a a * dotList b b) :=
            Real.le_sqrt_of_sq_le hsq
        _ = Real.sqrt (dotList a a) * Real.sqrt (dotList b b) :=
            Real.sqrt_mul (dotList_self_nonneg a) _
  · intro a hA
    have hApos : 0 < dotList a a := lt_of_le_of_ne (dotList_self_nonneg a) (Ne.symm hA)
    have hself : Real.sqrt (dotList a a) * Real.sqrt (dotList a a) = dotList a a :=
      Real.mul_self_sqrt (dotList_self_nonneg a)
    unfold cosineSimilarity
    rw [if_neg (by simp), if_neg (by rw [hself]; exact hApos.ne.symm), hself,
      div_self hApos.ne.symm]
  · intro a b hlen hA
    unfold cosineSimilarity
    rw [if_neg (by simp [hlen]), if_pos (by rw [hA, Real.sqrt_zero, zero_mul])]

theorem cosineSimilarity_spec_witness :
    (∃ s, cosineSimilarity [(1 : ℝ)] [(1 : ℝ)] = some s ∧ 0 ≤ s ∧ s ≤ 1) ∧
    cosineSimilarity [(3 : ℝ), 4] [(3 : ℝ), 4] = some 1 :=
  ⟨cosineSimilarity_spec.1 [(1 : ℝ)] [(1 : ℝ)] rfl (by norm_num) (by norm_num)
      (by norm_num [dotList]) (by norm_num [dotList]),
   cosineSimilarity_spec.2.1 [(3 : ℝ), 4] (by norm_num [dotList])⟩

/-! ## In-process vector store: InMemoryVectorStore -/

/-- A stored record: id, embedding, text and the documentId carried in its
metadata. -/
structure VRecord where
  id : String
  embedding : List ℝ
  text : String
  docId : String

/-- InMemoryVectorStore.addDocuments: push each incoming record in order
onto the held list. -/
def addDocuments (store batch : List VRecord) : List VRecord :=
  store ++ batch

/-- InMemoryVectorStore.removeDocument: keep exactly the records whose
metadata references a different document. -/
def removeDocument (store : List VRecord) (documentId : String) : List VRecord :=
  store.filter (fun doc => doc.docId ≠ documentId)

/-- One search result: a candidate record paired with its computed
similarity (NaN modelled as none). -/
structure SearchHit where
  record : VRecord
  similarity : Option ℝ

/-- The numeric value the sort comparator sees; the NaN case is
unspecified in JavaScript and fixed arbitrarily to 0 here (no claim
depends on the order among hits). -/
noncomputable def simValR : Option ℝ → ℝ
  | some x => x
  | none => 0

open Classical in
/-- Descending insertion by the comparator key. -/
noncomputable def insertBySim (x : SearchHit) : List SearchHit → List SearchHit
  | [] => [x]
  | y :: ys =>
    if simValR y.similarity ≤ simValR x.similarity then x :: y :: ys
    else y :: insertBySim x ys

/-- The descending sort of the scored candidates. -/
noncomputable def sortBySim (l : List SearchHit) : List SearchHit :=
  l.foldr insertBySim []

/-- The candidate pre-filter of InMemoryVectorStore.search. -/
def searchCandidates (store : List VRecord) (documentIds : List String) :
    List VRecord :=
  if 0 < documentIds.length then
    store.filter (fun doc => documentIds.contains doc.docId)
  else store

/-- The scored candidates of InMemoryVectorStore.search. -/
noncomputable def searchScored (store : List VRecord) (q : List ℝ)
    (documentIds : List String) : List SearchHit :=
  (searchCandidates store documentIds).map
    (fun doc => ⟨doc, cosineSimilarity q doc.embedding⟩)

structure SearchResult where
  chunks : List SearchHit
  documentsSearched : Nat

/-- InMemoryVectorStore.search: filter, score, sort descending, return
the first maxResults hits and the number of distinct documents seen. -/
noncomputable def search (store : List VRecord) (q : List ℝ)
    (documentIds : List String) (maxResults : Nat) : SearchResult :=
  ⟨(sortBySim (searchScored store q documentIds)).take maxResults,
   ((sortBySim (searchScored store q documentIds)).map
     (fun r => r.record.docId)).dedup.length⟩

theorem insertBySim_perm (x : SearchHit) (l : List SearchHit) :
    (insertBySim x l).Perm (x :: l) := by
  induction l with
  | nil => simp [insertBySim]
  | cons y ys ih =>
    unfold insertBySim
    split
    · exact List.Perm.refl _
    · exact (List.Perm.cons y ih).trans (List.Perm.swap x y ys)

theorem sortBySim_perm (l : List SearchHit) : (sortBySim l).Perm l := by
  induction l with
  | nil => simp [sortBySim]
  | cons x xs ih =>
    unfold sortBySim at *
    exact (insertBySim_perm _ _).trans (List.Perm.cons x ih)

/-- When maxResults covers every candidate, every scored candidate appears
among the returned chunks. -/
theorem search_mem_of_le (store : List VRecord) (q : List ℝ)
    (documentIds : List String) (maxResults : Nat) (h : SearchHit)
    (hmem : h ∈ searchScored store q documentIds)
    (hlen : (searchCandidates store documentIds).length ≤ maxResults) :
    h ∈ (search store q documentIds maxResults).chunks := by
  unfold search
  simp only
  have hperm := sortBySim_perm (searchScored store q documentIds)
  have hlen2 : (sortBySim (searchScored store q documentIds)).length ≤ maxResults := by
    rw [hperm.length_eq]
    unfold searchScored
    rw [List.length_map]
    exact hlen
  rw [List.take_of_length_le hlen2]
  exact hperm.mem_iff.mpr hmem

/-- Every returned chunk is a scored candidate of the store searched. -/
theorem search_chunks_subset (store : List VRecord) (q : List ℝ)
    (documentIds : List String) (maxResults : Nat) (h : SearchHit)
    (hmem : h ∈ (search store q documentIds maxResults).chunks) :
    h.record ∈ store := by
  unfold search at hmem
  simp only at hmem
  have h1 : h ∈ sortBySim (searchScored store q documentIds) :=
    List.mem_of_mem_take hmem
  have h2 : h ∈ searchScored store q documentIds :=
    (sortBySim_perm _).mem_iff.mp h1
  unfold searchScored at h2
  obtain ⟨doc, hdoc, rfl⟩ := List.mem_map.mp h2
  unfold searchCandidates at hdoc
  by_cases hids : 0 < documentIds.length
  · rw [if_pos hids] at hdoc
    exact List.mem_of_mem_filter hdoc
  · rw [if_neg hids] at hdoc
    exact hdoc

/-! ## Remote store failover: RAGService.addDocument

The remote ChromaDB collection is an external service; its responses to
the initial add, the collection recreation, and the retried add are the
three components of RemoteAddBehavior.  The backend actually held by the
service is the Collection state: the chroma handle or the in-process
store. -/

inductive Collection
  | chroma (name : String)
  | inMemory (store : List VRecord)

structure RemoteAddBehavior where
  addResult : Except String Unit
  recreateResult : Except String Unit
  retryResult : Except String Unit

/-- Substring containment, as String.prototype.includes. -/
def containsSubstring (s pat : String) : Bool :=
  decide (pat.toList <:+: s.toList)

/-- The store-corruption-class test of addDocument: the error message
mentions compaction or the log store. -/
def isCorruptionMsg (msg : String) : Bool :=
  containsSubstring msg "compaction" || containsSubstring msg "log store"

structure AddOutcome where
  collection : Collection
  remoteAddAttempts : Nat

/-- One RAGService.addDocument call, given the remote behaviour: a chroma
backend attempts the remote add; on a corruption-class failure it
recreates the collection and retries once, falling back to a freshly
created in-process store (created empty, then handed exactly the current
batch) when recreation or the retry fails; a non-corruption failure falls
back directly; an in-process backend just appends the batch. -/
def addDocumentStep (col : Collection) (batch : List VRecord)
    (rb : RemoteAddBehavior) : AddOutcome :=
  match col with
  | .inMemory store => ⟨.inMemory (addDocuments store batch), 0⟩
  | .chroma name =>
    match rb.addResult with
    | .ok _ => ⟨.chroma name, 1⟩
    | .error msg =>
      if isCorruptionMsg msg then
        match rb.recreateResult with
        | .error _ => ⟨.inMemory (addDocuments [] batch), 1⟩
        | .ok _ =>
          match rb.retryResult with
          | .ok _ => ⟨.chroma "padalayai_documents_new", 2⟩
          | .error _ => ⟨.inMemory (addDocuments [] batch), 2⟩
      else ⟨.inMemory (addDocuments [] batch), 1⟩

def addManyStep (acc : Collection × Nat)
    (step : List VRecord × RemoteAddBehavior) : Collection × Nat :=
  ((addDocumentStep acc.1 step.1 step.2).collection,
    acc.2 + (addDocumentStep acc.1 step.1 step.2).remoteAddAttempts)

/-- A sequence of addDocument calls, accumulating the number of remote
add attempts made. -/
def addMany (col : Collection) (steps : List (List VRecord × RemoteAddBehavior)) :
    Collection × Nat :=
  steps.foldl addManyStep (col, 0)

theorem addMany_inMemory (steps : List (List VRecord × RemoteAddBehavior)) :
    ∀ (s : List VRecord) (n : Nat),
      steps.foldl addManyStep (.inMemory s, n)
        = (.inMemory (s ++ (steps.map Prod.fst).flatten), n) := by
  induction steps with
  | nil => intro s n; simp
  | cons step rest ih =>
    intro s n
    rw [List.foldl_cons]
    show rest.foldl addManyStep (.inMemory (addDocuments s step.1), n + 0) = _
    rw [ih]
    simp [addDocuments]

/-- Claim C3: when the remote add fails with a store-corruption-class
error and the recreate-and-retry cycle also fails, the store downgrades to
the in-process backend holding the triggering batch; afterwards every add
lands in the in-process backend with zero further remote attempts, and a
search with no filter and a covering maxResults returns each record added
after the downgrade. -/
theorem addDocument_downgrade_permanent
    (name msg : String) (batch : List VRecord) (rb : RemoteAddBehavior)
    (hfail : rb.addResult = .error msg) (hcorr : isCorruptionMsg msg = true)
    (hretry : (∃ e, rb.recreateResult = Except.error e) ∨
      (∃ e, rb.retryResult = Except.error e)) :
    (addDocumentStep (.chroma name) batch rb).collection = .inMemory batch ∧
    (∀ steps, addMany (.inMemory batch) steps
      = (.inMemory (batch ++ (steps.map Prod.fst).flatten), 0)) ∧
    (∀ (store : List VRecord) (r : VRecord) (q : List ℝ) (maxResults : Nat),
      r ∈ store → store.length ≤ maxResults →
      SearchHit.mk r (cosineSimilarity q r.embedding)
        ∈ (search store q [] maxResults).chunks) := by
  refine ⟨?_, ?_, ?_⟩
  · obtain ⟨ar, rr, tr⟩ := rb
    simp only at hfail
    subst hfail
    rcases hretry with ⟨e, hre⟩ | ⟨e, hre⟩
    · simp only at hre
      subst hre
      simp [addDocumentStep, hcorr, addDocuments]
    · simp only at hre
      subst hre
      cases rr with
      | error e2 => simp [addDocumentStep, hcorr, addDocuments]
      | ok u => cases u; simp [addDocumentStep, hcorr, addDocuments]
  · intro steps
    exact addMany_inMemory steps batch 0
  · intro store r q maxResults hr hlen
    apply search_mem_of_le
    · unfold searchScored searchCandidates
      rw [if_neg (by simp)]
      exact List.mem_map.mpr ⟨r, hr, rfl⟩
    · unfold searchCandidates
      rw [if_neg (by simp)]
      exact hlen

theorem addDocument_downgrade_permanent_witness :
    (addDocumentStep (.chroma "padalayai_documents")
        [⟨"c1", [1], "alpha", "d1"⟩]
        ⟨.error "compaction error", .ok (), .error "retry failed"⟩).collection
      = .inMemory [⟨"c1", [1], "alpha", "d1"⟩] ∧
    addMany (.inMemory [⟨"c1", [1], "alpha", "d1"⟩])
        [([⟨"c2", [2], "beta", "d2"⟩], ⟨.error "boom", .ok (), .ok ()⟩)]
      = (.inMemory [⟨"c1", [1], "alpha", "d1"⟩, ⟨"c2", [2], "beta", "d2"⟩], 0) ∧
    SearchHit.mk ⟨"c2", [2], "beta", "d2"⟩ (cosineSimilarity [1] [2]) ∈
      (search [⟨"c1", [1], "alpha", "d1"⟩, ⟨"c2", [2], "beta", "d2"⟩]
        [1] [] 5).chunks := by
  have h := addDocument_downgrade_permanent "padalayai_documents" "compaction error"
    [⟨"c1", [1], "alpha", "d1"⟩]
    ⟨.error "compaction error", .ok (), .error "retry failed"⟩
    rfl (by decide) (Or.inr ⟨"retry failed", rfl⟩)
  refine ⟨h.1, ?_, ?_⟩
  · have h2 := h.2.1 [([⟨"c2", [2], "beta", "d2"⟩], ⟨.error "boom", .ok (), .ok ()⟩)]
    simpa using h2
  · exact h.2.2 _ ⟨"c2", [2], "beta", "d2"⟩ [1] 5 (by simp) (by simp)

/-- Claim C10: whichever failure path downgrades addDocument to the
in-process backend, the fresh in-process store holds exactly the batch of
the triggering add, and searches only ever return records of that store,
so everything indexed remotely before the downgrade is absent. -/
theorem downgrade_creates_fresh_store
    (name : String) (batch : List VRecord) (rb : RemoteAddBehavior)
    (s : List VRecord)
    (hdown : (addDocumentStep (.chroma name) batch rb).collection = .inMemory s) :
    s = batch ∧
    ∀ (q : List ℝ) (ids : List String) (maxResults : Nat) (h : SearchHit),
      h ∈ (search s q ids maxResults).chunks → h.record ∈ batch := by
  have hs : s = batch := by
    obtain ⟨ar, rr, tr⟩ := rb
    cases ar with
    | ok u => simp [addDocumentStep] at hdown
    | error msg =>
      by_cases hc : isCorruptionMsg msg = true
      · cases rr with
        | error e =>
          simp [addDocumentStep, hc, addDocuments] at hdown
          exact hdown.symm
        | ok u =>
          cases tr with
          | ok v => simp [addDocumentStep, hc] at hdown
          | error e =>
            simp [addDocumentStep, hc, addDocuments] at hdown
            exact hdown.symm
      · rw [addDocumentStep] at hdown
        simp only [if_neg hc, addDocuments, List.nil_append,
          Collection.inMemory.injEq] at hdown
        exact hdown.symm
  refine ⟨hs, ?_⟩
  intro q ids maxResults h hmem
  rw [← hs]
  exact search_chunks_subset s q ids maxResults h hmem

theorem downgrade_creates_fresh_store_witness :
    ([⟨"c1", [1], "alpha", "d1"⟩] : List VRecord)
      = [⟨"c1", [1], "alpha", "d1"⟩] :=
  (downgrade_creates_fresh_store "padalayai_documents"
    [⟨"c1", [1], "alpha", "d1"⟩]
    ⟨.error "unrelated failure", .ok (), .ok ()⟩
    [⟨"c1", [1], "alpha", "d1"⟩] rfl).1

/-! ## Query pipeline: RAGService.query, RAGService.calculateConfidence,
and the query route with its validation -/

/-- A context item as assembled by the query path: a document chunk hit or
an MCP-provided item; an absent similarity field is modelled none. -/
structure ContextItem where
  id : String
  text : String
  similarity : Option ℝ
  docId : String

/-- JavaScript Math.round: round half toward positive infinity. -/
noncomputable def jsRound (x : ℝ) : ℤ :=
  ⌊x + 1 / 2⌋

/-- RAGService.calculateConfidence: 0 when there are no chunks, otherwise
the mean of the (similarity or 0) values, rounded to two decimals. -/
noncomputable def calculateConfidence (chunks : List ContextItem) : ℝ :=
  if chunks.length = 0 then 0
  else (jsRound ((chunks.foldl (fun s c => s + simValR c.similarity) 0
    / chunks.length) * 100) : ℝ) / 100

structure QueryRecord where
  query : String
  answer : String
  sourcesCount : Nat
  confidence : ℝ

/-- The assembly step of RAGService.query, lines 334-375: the combined
context is the document hits followed by the MCP items (the source skips
the append when the MCP list is empty, which appends nothing); sources are
the first maxResults items and confidence is computed over the full
combined context. -/
noncomputable def queryAssemble (q : String) (searchChunks mcpContext : List ContextItem)
    (maxResults : Nat) (answer : String) : QueryRecord :=
  { query := q
    answer := answer
    sourcesCount := ((searchChunks ++ mcpContext).take maxResults).length
    confidence := calculateConfidence (searchChunks ++ mcpContext) }

/-- The service state: the backing collection, the append-only query
history, and counters of embedding generations and vector searches
performed. -/
structure RAGState where
  collection : Collection
  history : List QueryRecord
  embedCalls : Nat
  searchCalls : Nat

/-- The chunks returned by searchSimilarChunks: the remote ChromaDB reply
is external input; the in-process backend is searched directly. -/
noncomputable def collectionChunks (col : Collection) (emb : List ℝ)
    (documentIds : List String) (n : Nat) (chromaChunks : List ContextItem) :
    List ContextItem :=
  match col with
  | .chroma _ => chromaChunks
  | .inMemory store => ((search store emb documentIds n).chunks).map
      (fun h => ⟨h.record.id, h.record.text, h.similarity, h.record.docId⟩)

/-- RAGService.query: embed the query text with the deterministic local
provider, retrieve 2 times maxResults candidates, assemble the record and
append it to history, counting the embedding and search performed. -/
noncomputable def ragQuery (st : RAGState) (q : String) (documentIds : List String)
    (maxResults : Nat) (chromaChunks mcpContext : List ContextItem)
    (answer : String) : RAGState × QueryRecord :=
  let emb := generateSimpleEmbedding q.toList 384
  let chunks := collectionChunks st.collection emb documentIds (maxResults * 2)
    chromaChunks
  let qr := queryAssemble q chunks mcpContext maxResults answer
  ({ st with
      history := st.history ++ [qr]
      embedCalls := st.embedCalls + 1
      searchCalls := st.searchCalls + 1 }, qr)

/-- The request body of the query route (fields other than the query text
play no role in the validation under study). -/
structure QueryBody where
  query : Option String

/-- The querySchema validation: query is a required Joi string of length
between 1 and 1000.  Joi rejects a missing value and the empty string but
does not trim, so whitespace-only strings pass. -/
def joiQueryValid (body : QueryBody) : Bool :=
  match body.query with
  | none => false
  | some s => s ≠ "" && 1 ≤ s.length && s.length ≤ 1000

/-- The query route handler: Joi validation, then the explicit guard
rejecting a query whose trim is empty, then the RAG query on the trimmed
text with maxResults capped at 20. -/
noncomputable def handleQueryRoute (st : RAGState) (body : QueryBody)
    (documentIds : List String) (maxResults : Nat)
    (chromaChunks mcpContext : List ContextItem) (answer : String) :
    RAGState × Except String QueryRecord :=
  if joiQueryValid body then
    match body.query with
    | none => (st, Except.error "Invalid query parameters")
    | some q =>
      if (jsTrim q.toList).length = 0 then
        (st, Except.error "Query cannot be empty")
      else
        let r := ragQuery st (String.mk (jsTrim q.toList)) documentIds
          (min maxResults 20) chromaChunks mcpContext answer
        (r.1, Except.ok r.2)
  else (st, Except.error "Invalid query parameters")

theorem foldl_simVal_eq_sum (l : List ContextItem) :
    l.foldl (fun s c => s + simValR c.similarity) 0
      = (l.map (fun c => simValR c.similarity)).sum := by
  have key : ∀ (w : List ContextItem) (s : ℝ),
      w.foldl (fun a c => a + simValR c.similarity) s
        = s + (w.map (fun c => simValR c.similarity)).sum := by
    intro w
    induction w with
    | nil => intro s; simp
    | cons c cs ih => intro s; simp [ih]; ring
  simpa using key l 0

theorem floor_ninety : (⌊(90 : ℝ) + 1 / 2⌋ : ℤ) = 90 := by
  rw [Int.floor_eq_iff]
  constructor <;> norm_num

/-- Claim C5: the confidence of a completed query equals the mean of the
(similarity or 0) values of the full context actually passed to answer
generation, rounded to two decimals via round(x*100)/100; an empty context
gives exactly 0 and a single item of similarity 0.9 gives 0.90. -/
theorem query_confidence_spec :
    (∀ (st : RAGState) (q : String) (documentIds : List String)
       (maxResults : Nat) (chromaChunks mcpContext : List ContextItem)
       (answer : String),
      (ragQuery st q documentIds maxResults chromaChunks mcpContext answer).2.confidence
        = (if (collectionChunks st.collection (generateSimpleEmbedding q.toList 384)
              documentIds (maxResults * 2) chromaChunks ++ mcpContext).length = 0
          then 0
          else (jsRound ((((collectionChunks st.collection
                (generateSimpleEmbedding q.toList 384) documentIds (maxResults * 2)
                chromaChunks ++ mcpContext).map
                  (fun c => simValR c.similarity)).sum
              / (collectionChunks st.collection (generateSimpleEmbedding q.toList 384)
                documentIds (maxResults * 2) chromaChunks ++ mcpContext).length)
              * 100) : ℝ) / 100)) ∧
    calculateConfidence [] = 0 ∧
    calculateConfidence [⟨"c1", "chunk text", some (9 / 10), "d1"⟩] = 9 / 10 := by
  have hconf : ∀ ctx : List ContextItem,
      calculateConfidence ctx
        = (if ctx.length = 0 then 0
          else (jsRound (((ctx.map (fun c => simValR c.similarity)).sum / ctx.length)
            * 100) : ℝ) / 100) := by
    intro ctx
    unfold calculateConfidence
    rw [foldl_simVal_eq_sum]
  refine ⟨?_, ?_, ?_⟩
  · intro st q documentIds maxResults chromaChunks mcpContext answer
    have hr : (ragQuery st q documentIds maxResults chromaChunks mcpContext
        answer).2.confidence
        = calculateConfidence (collectionChunks st.collection
            (generateSimpleEmbedding q.toList 384) documentIds (maxResults * 2)
            chromaChunks ++ mcpContext) := rfl
    rw [hr, hconf]
  · rw [hconf]
    simp
  · rw [hconf]
    rw [if_neg (by simp)]
    simp only [List.map_cons, List.map_nil, List.sum_cons, List.sum_nil,
      List.length_cons, List.length_nil, simValR]
    have h90 : ((9 : ℝ) / 10 + 0) / (↑(0 + 1) : ℕ) * 100 = 90 := by norm_num
    rw [h90]
    unfold jsRound
    rw [floor_ninety]
    norm_num

/-- Claim C9: a query request whose text is empty or whitespace-only is
rejected before any retrieval work: the service state (history, embedding
counter, search counter) is returned untouched and the route answers with
an error; the empty text is stopped by the Joi validation and the
whitespace-only text by the explicit trim guard. -/
theorem query_whitespace_rejected (st : RAGState) (body : QueryBody)
    (documentIds : List String) (maxResults : Nat)
    (chromaChunks mcpContext : List ContextItem) (answer : String) (q : String)
    (hq : body.query = some q) (hws : (jsTrim q.toList).length = 0) :
    (handleQueryRoute st body documentIds maxResults chromaChunks mcpContext
      answer).1 = st ∧
    ∃ e, (handleQueryRoute st body documentIds maxResults chromaChunks mcpContext
      answer).2 = Except.error e := by
  unfold handleQueryRoute
  by_cases hv : joiQueryValid body
  · rw [if_pos hv, hq]
    dsimp only
    rw [if_pos hws]
    exact ⟨rfl, "Query cannot be empty", rfl⟩
  · rw [if_neg hv]
    exact ⟨rfl, "Invalid query parameters", rfl⟩

theorem query_whitespace_rejected_witness :
    (handleQueryRoute ⟨.inMemory [], [], 0, 0⟩ ⟨some "   "⟩ [] 5 [] [] "ans").1
      = ⟨.inMemory [], [], 0, 0⟩ :=
  (query_whitespace_rejected ⟨.inMemory [], [], 0, 0⟩ ⟨some "   "⟩ [] 5 [] []
    "ans" "   " rfl (by decide)).1

/-! ## MCP RPC channel: MCPClient.callTool and MCPClient.listTools

The worker stdout is a byte stream delivered in data chunks.  JSON.parse
is the platform JSON parser, abstracted as a parse parameter taking a
line to a structured response exactly when the line is valid JSON.  The
state of one pending callTool call holds the line buffer, whether the
response handler is still attached, whether the per-call timeout is still
armed, and the outcome of the call. -/

structure RpcResponse where
  id : Option Int
  error : Option String
  result : String
deriving DecidableEq

inductive CallOutcome
  | pending
  | resolved (result : String)
  | rejectedError (msg : String)
  | rejectedTimeout
deriving DecidableEq

structure CallState where
  buffer : List Char
  listening : Bool
  timerArmed : Bool
  outcome : CallOutcome
deriving DecidableEq

def initCallState : CallState :=
  ⟨[], true, true, .pending⟩

/-- The or-default of response.error.message: an empty message falls back
to the fixed default. -/
def errMessageD (dflt m : String) : String :=
  if m = "" then dflt else m

/-- Handling of one complete line inside the callTool responseHandler: a
detached handler sees nothing; blank lines are skipped; unparseable lines
are logged and skipped; a response with a different id is ignored; a
response with the call id completes the call, detaching the handler and
cancelling the timeout. -/
def processLine (parse : List Char → Option RpcResponse) (mid : Int)
    (st : CallState) (line : List Char) : CallState :=
  if st.listening = false then st
  else if jsTrim line = [] then st
  else
    match parse line with
    | none => st
    | some r =>
      if r.id = some mid then
        match r.error with
        | some m =>
          { st with outcome := .rejectedError (errMessageD "MCP tool call failed" m)
                    listening := false
                    timerArmed := false }
        | none =>
          { st with outcome := .resolved r.result
                    listening := false
                    timerArmed := false }
      else st

/-- One data event on the worker stdout: append to the buffer, split into
lines keeping the trailing incomplete line buffered, and feed each
complete line to the line handler. -/
def processData (parse : List Char → Option RpcResponse) (mid : Int)
    (st : CallState) (chunk : List Char) : CallState :=
  if st.listening = false then st
  else
    ((splitNL (st.buffer ++ chunk)).dropLast).foldl (processLine parse mid)
      { st with buffer := (splitNL (st.buffer ++ chunk)).getLastD [] }

inductive ChanEvent
  | data (chunk : List Char)
  | timeoutFire
deriving DecidableEq

/-- One channel event: a stdout data chunk, or the 30-second timer firing
(which only acts while armed, i.e. while not cleared by completion). -/
def stepEvent (parse : List Char → Option RpcResponse) (mid : Int)
    (st : CallState) (ev : ChanEvent) : CallState :=
  match ev with
  | .data chunk => processData parse mid st chunk
  | .timeoutFire =>
    if st.timerArmed then
      { st with outcome := .rejectedTimeout, listening := false, timerArmed := false }
    else st

/-- The life of one callTool call: the event sequence folded over the
freshly registered pending state. -/
def runCall (parse : List Char → Option RpcResponse) (mid : Int)
    (events : List ChanEvent) : CallState :=
  events.foldl (stepEvent parse mid) initCallState

/-- All complete lines the stream delivers, tracked by the same buffering
discipline, independent of any call. -/
def collectViaBuffer (buf : List Char) : List ChanEvent → List (List Char)
  | [] => []
  | .data chunk :: evs =>
    (splitNL (buf ++ chunk)).dropLast
      ++ collectViaBuffer ((splitNL (buf ++ chunk)).getLastD []) evs
  | .timeoutFire :: evs => collectViaBuffer buf evs

def collectedLines (events : List ChanEvent) : List (List Char) :=
  collectViaBuffer [] events

/-- The ids handed out by n successive callTool calls on a server whose
counter currently reads messageId: each call uses the pre-incremented
counter. -/
def issueIds (messageId : Nat) : Nat → List Nat
  | 0 => []
  | n + 1 => (messageId + 1) :: issueIds (messageId + 1) n

/-- A line completing a call with outcome o: it parses to a response
carrying the call id, and o is the corresponding resolution or error
rejection. -/
def lineCompletes (parse : List Char → Option RpcResponse) (mid : Int)
    (line : List Char) (o : CallOutcome) : Prop :=
  ∃ r, parse line = some r ∧ r.id = some mid ∧
    ((r.error = none ∧ o = .resolved r.result) ∨
     (∃ m, r.error = some m ∧
       o = .rejectedError (errMessageD "MCP tool call failed" m)))

/-- The channel invariant: the timer is armed exactly while the handler
listens, and the call is pending exactly while the handler listens. -/
def ChanInv (st : CallState) : Prop :=
  st.listening = st.timerArmed ∧ (st.outcome = .pending ↔ st.listening = true)

theorem processLine_not_listening (parse : List Char → Option RpcResponse)
    (mid : Int) (st : CallState) (line : List Char) (h : st.listening = false) :
    processLine parse mid st line = st := by
  unfold processLine
  rw [if_pos h]

theorem foldl_processLine_not_listening (parse : List Char → Option RpcResponse)
    (mid : Int) (lines : List (List Char)) :
    ∀ st : CallState, st.listening = false →
      lines.foldl (processLine parse mid) st = st := by
  induction lines with
  | nil => intro st _; rfl
  | cons l ls ih =>
    intro st h
    rw [List.foldl_cons, processLine_not_listening parse mid st l h, ih st h]

theorem processLine_buffer (parse : List Char → Option RpcResponse)
    (mid : Int) (st : CallState) (line : List Char) :
    (processLine parse mid st line).buffer = st.buffer := by
  unfold processLine
  split
  · rfl
  · split
    · rfl
    · split
      · rfl
      · split
        · split <;> rfl
        · rfl

theorem foldl_processLine_buffer (parse : List Char → Option RpcResponse)
    (mid : Int) (lines : List (List Char)) :
    ∀ st : CallState,
      (lines.foldl (processLine parse mid) st).buffer = st.buffer := by
  induction lines with
  | nil => intro st; rfl
  | cons l ls ih =>
    intro st
    rw [List.foldl_cons, ih, processLine_buffer]

theorem processLine_inv (parse : List Char → Option RpcResponse)
    (mid : Int) (st : CallState) (line : List Char) (h : ChanInv st) :
    ChanInv (processLine parse mid st line) := by
  unfold processLine
  split
  · exact h
  · split
    · exact h
    · split
      · exact h
      · split
        · split
          · exact ⟨rfl, by simp⟩
          · exact ⟨rfl, by simp⟩
        · exact h

theorem foldl_processLine_inv (parse : List Char → Option RpcResponse)
    (mid : Int) (lines : List (List Char)) :
    ∀ st : CallState, ChanInv st →
      ChanInv (lines.foldl (processLine parse mid) st) := by
  induction lines with
  | nil => intro st h; exact h
  | cons l ls ih =>
    intro st h
    exact ih _ (processLine_inv parse mid st l h)

theorem processData_inv (parse : List Char → Option RpcResponse)
    (mid : Int) (st : CallState) (chunk : List Char) (h : ChanInv st) :
    ChanInv (processData parse mid st chunk) := by
  unfold processData
  split
  · exact h
  · exact foldl_processLine_inv parse mid _ _ ⟨h.1, h.2⟩

theorem stepEvent_inv (parse : List Char → Option RpcResponse)
    (mid : Int) (st : CallState) (ev : ChanEvent) (h : ChanInv st) :
    ChanInv (stepEvent parse mid st ev) := by
  cases ev with
  | data chunk => exact processData_inv parse mid st chunk h
  | timeoutFire =>
    show ChanInv (if st.timerArmed = true then
      { st with outcome := .rejectedTimeout, listening := false, timerArmed := false }
      else st)
    split
    · exact ⟨rfl, by simp⟩
    · exact h

theorem stepEvent_frozen (parse : List Char → Option RpcResponse)
    (mid : Int) (st : CallState) (ev : ChanEvent)
    (hl : st.listening = false) (ht : st.timerArmed = false) :
    stepEvent parse mid st ev = st := by
  cases ev with
  | data chunk =>
    show processData parse mid st chunk = st
    unfold processData
    rw [if_pos hl]
  | timeoutFire =>
    show (if st.timerArmed = true then
      { st with outcome := .rejectedTimeout, listening := false, timerArmed := false }
      else st) = st
    rw [if_neg (by rw [ht]; simp)]

theorem foldl_stepEvent_frozen (parse : List Char → Option RpcResponse)
    (mid : Int) (evs : List ChanEvent) :
    ∀ st : CallState, st.listening = false → st.timerArmed = false →
      evs.foldl (stepEvent parse mid) st = st := by
  induction evs with
  | nil => intro st _ _; rfl
  | cons ev evs ih =>
    intro st hl ht
    rw [List.foldl_cons, stepEvent_frozen parse mid st ev hl ht, ih st hl ht]

theorem runCall_inv (parse : List Char → Option RpcResponse) (mid : Int)
    (evs : List ChanEvent) : ChanInv (runCall parse mid evs) := by
  unfold runCall
  have : ∀ (l : List ChanEvent) (st : CallState), ChanInv st →
      ChanInv (l.foldl (stepEvent parse mid) st) := by
    intro l
    induction l with
    | nil => intro st h; exact h
    | cons ev l ih => intro st h; exact ih _ (stepEvent_inv parse mid st ev h)
  exact this evs initCallState ⟨rfl, by simp [initCallState]⟩

/-- A single line either leaves the call state unchanged or completes the
call: then the handler was listening, it detaches, and the outcome is the
resolution or rejection carried by that line. -/
theorem processLine_cases (parse : List Char → Option RpcResponse) (mid : Int)
    (st : CallState) (line : List Char) :
    processLine parse mid st line = st ∨
    ((processLine parse mid st line).listening = false ∧
      lineCompletes parse mid line (processLine parse mid st line).outcome) := by
  unfold processLine
  split
  · left; rfl
  · split
    · left; rfl
    · split
      · left; rfl
      · rename_i r hparse
        split
        · rename_i hid
          split
          · rename_i m herr
            right
            exact ⟨rfl, r, hparse, hid, Or.inr ⟨m, herr, rfl⟩⟩
          · rename_i herr
            right
            exact ⟨rfl, r, hparse, hid, Or.inl ⟨herr, rfl⟩⟩
        · left; rfl

theorem foldl_processLine_origin (parse : List Char → Option RpcResponse)
    (mid : Int) (lines : List (List Char)) :
    ∀ st : CallState,
      (lines.foldl (processLine parse mid) st).outcome = st.outcome ∨
      ∃ line ∈ lines,
        lineCompletes parse mid line
          ((lines.foldl (processLine parse mid) st).outcome) := by
  induction lines with
  | nil => intro st; left; rfl
  | cons l ls ih =>
    intro st
    rw [List.foldl_cons]
    rcases processLine_cases parse mid st l with heq | ⟨hlist, hcomp⟩
    · rw [heq]
      rcases ih st with h | ⟨line, hmem, hc⟩
      · left; exact h
      · right; exact ⟨line, by simp [hmem], hc⟩
    · rw [foldl_processLine_not_listening parse mid ls _ hlist]
      right
      exact ⟨l, by simp, hcomp⟩

/-- Along any event sequence from an invariant state, the final outcome is
the initial one, or the local timeout rejection, or the completion carried
by one of the delivered lines. -/
theorem runFrom_origin (parse : List Char → Option RpcResponse) (mid : Int)
    (evs : List ChanEvent) :
    ∀ st : CallState, ChanInv st →
      (evs.foldl (stepEvent parse mid) st).outcome = st.outcome ∨
      (evs.foldl (stepEvent parse mid) st).outcome = .rejectedTimeout ∨
      ∃ line ∈ collectViaBuffer st.buffer evs,
        lineCompletes parse mid line
          ((evs.foldl (stepEvent parse mid) st).outcome) := by
  induction evs with
  | nil => intro st _; left; rfl
  | cons ev evs ih =>
    intro st hinv
    by_cases hl : st.listening = false
    · have ht : st.timerArmed = false := by rw [← hinv.1]; exact hl
      rw [List.foldl_cons, stepEvent_frozen parse mid st ev hl ht,
        foldl_stepEvent_frozen parse mid evs st hl ht]
      left; rfl
    · have hl' : st.listening = true := by
        cases hlv : st.listening
        · exact absurd hlv hl
        · rfl
      cases ev with
      | timeoutFire =>
        have ht : st.timerArmed = true := by rw [← hinv.1]; exact hl'
        have hstep : stepEvent parse mid st .timeoutFire
            = { st with outcome := .rejectedTimeout
                        listening := false
                        timerArmed := false } := by
          show (if st.timerArmed = true then _ else st) = _
          rw [if_pos ht]
        rw [List.foldl_cons, hstep, foldl_stepEvent_frozen parse mid evs _ rfl rfl]
        right; left; rfl
      | data chunk =>
        have hstep : stepEvent parse mid st (.data chunk)
            = ((splitNL (st.buffer ++ chunk)).dropLast).foldl (processLine parse mid)
                { st with buffer := (splitNL (st.buffer ++ chunk)).getLastD [] } := by
          show processData parse mid st chunk = _
          unfold processData
          rw [if_neg (by rw [hl']; simp)]
        rw [List.foldl_cons]
        have hbuf : (stepEvent parse mid st (.data chunk)).buffer
            = (splitNL (st.buffer ++ chunk)).getLastD [] := by
          rw [hstep, foldl_processLine_buffer]
        have hinv' : ChanInv (stepEvent parse mid st (.data chunk)) :=
          stepEvent_inv parse mid st _ hinv
        rcases ih (stepEvent parse mid st (.data chunk)) hinv' with h | h | ⟨line, hmem, hc⟩
        · rcases foldl_processLine_origin parse mid
              ((splitNL (st.buffer ++ chunk)).dropLast)
              { st with buffer := (splitNL (st.buffer ++ chunk)).getLastD [] }
            with h2 | ⟨line, hmem2, hc2⟩
          · left
            rw [h, hstep, h2]
          · right; right
            refine ⟨line, ?_, ?_⟩
            · show line ∈ collectViaBuffer st.buffer (.data chunk :: evs)
              simp only [collectViaBuffer]
              exact List.mem_append.mpr (Or.inl hmem2)
            · rw [h, hstep]
              exact hc2
        · right; left; exact h
        · right; right
          refine ⟨line, ?_, hc⟩
          show line ∈ collectViaBuffer st.buffer (.data chunk :: evs)
          simp only [collectViaBuffer]
          rw [← hbuf]
          exact List.mem_append.mpr (Or.inr hmem)

theorem issueIds_mem_gt (n : Nat) :
    ∀ (m x : Nat), x ∈ issueIds m n → m < x := by
  induction n with
  | zero => intro m x hx; simp [issueIds] at hx
  | succ k ih =>
    intro m x hx
    simp only [issueIds, List.mem_cons] at hx
    rcases hx with rfl | hx
    · omega
    · have := ih (m + 1) x hx
      omega

theorem issueIds_chain (n : Nat) :
    ∀ m : Nat, List.Chain' (· < ·) (issueIds m n) := by
  induction n with
  | zero => intro m; simp [issueIds]
  | succ k ih =>
    intro m
    simp only [issueIds]
    rw [List.chain'_cons']
    refine ⟨?_, ih (m + 1)⟩
    intro b hb
    exact issueIds_mem_gt k (m + 1) b (List.mem_of_mem_head? hb)

/-- Claim C1: correlation ids are issued by a strictly increasing
per-server counter; a call completes at most once and its completed state
absorbs all later events (so a response arriving after completion or
timeout has no effect); a resolution or error rejection always originates
from a delivered line carrying the call id itself; and if no delivered
line carries the call id, the call is still pending or was timed out,
never completed by a response. -/
theorem callTool_correlation :
    (∀ m n : Nat, List.Chain' (· < ·) (issueIds m n)) ∧
    (∀ (parse : List Char → Option RpcResponse) (mid : Int)
       (evs more : List ChanEvent),
      (runCall parse mid evs).outcome ≠ .pending →
      runCall parse mid (evs ++ more) = runCall parse mid evs) ∧
    (∀ (parse : List Char → Option RpcResponse) (mid : Int) (evs : List ChanEvent),
      (runCall parse mid evs).outcome = .pending ∨
      (runCall parse mid evs).outcome = .rejectedTimeout ∨
      ∃ line ∈ collectedLines evs,
        lineCompletes parse mid line ((runCall parse mid evs).outcome)) ∧
    (∀ (parse : List Char → Option RpcResponse) (mid : Int) (evs : List ChanEvent),
      (∀ line ∈ collectedLines evs, ∀ r, parse line = some r → r.id ≠ some mid) →
      (runCall parse mid evs).outcome = .pending ∨
      (runCall parse mid evs).outcome = .rejectedTimeout) := by
  have horigin : ∀ (parse : List Char → Option RpcResponse) (mid : Int)
      (evs : List ChanEvent),
      (runCall parse mid evs).outcome = .pending ∨
      (runCall parse mid evs).outcome = .rejectedTimeout ∨
      ∃ line ∈ collectedLines evs,
        lineCompletes parse mid line ((runCall parse mid evs).outcome) := by
    intro parse mid evs
    have h := runFrom_origin parse mid evs initCallState ⟨rfl, by simp [initCallState]⟩
    rcases h with h | h | h
    · left; exact h
    · right; left; exact h
    · right; right; exact h
  refine ⟨fun m n => issueIds_chain n m, ?_, horigin, ?_⟩
  · intro parse mid evs more hne
    unfold runCall
    rw [List.foldl_append]
    have hinv := runCall_inv parse mid evs
    have hl : (runCall parse mid evs).listening = false := by
      cases hlv : (runCall parse mid evs).listening
      · rfl
      · exact absurd (hinv.2.mpr hlv) hne
    have ht : (runCall parse mid evs).timerArmed = false := by
      rw [← hinv.1]; exact hl
    exact foldl_stepEvent_frozen parse mid more _ hl ht
  · intro parse mid evs hnomatch
    rcases horigin parse mid evs with h | h | ⟨line, hmem, r, hp, hid, _⟩
    · left; exact h
    · right; exact h
    · exact absurd hid (hnomatch line hmem r hp)

/-- A concrete parse function for witnesses: three one-line responses with
ids 1, 2 and 3. -/
def demoParse (line : List Char) : Option RpcResponse :=
  if line = ['r', '1'] then some ⟨some 1, none, "alpha"⟩
  else if line = ['r', '2'] then some ⟨some 2, none, "beta"⟩
  else if line = ['r', '3'] then some ⟨some 3, none, "gamma"⟩
  else none

theorem callTool_correlation_witness :
    List.Chain' (· < ·) (issueIds 0 3) ∧
    runCall demoParse 1
        ([.data ['r', '3', '\n', 'r', '1', '\n'], .data ['r', '2', '\n']]
          ++ [.data ['r', '1', '\n']])
      = runCall demoParse 1
          [.data ['r', '3', '\n', 'r', '1', '\n'], .data ['r', '2', '\n']] ∧
    (runCall demoParse 1
      [.data ['r', '3', '\n', 'r', '1', '\n'], .data ['r', '2', '\n']]).outcome
      = .resolved "alpha" ∧
    (runCall demoParse 2
      [.data ['r', '3', '\n', 'r', '1', '\n'], .data ['r', '2', '\n']]).outcome
      = .resolved "beta" ∧
    (runCall demoParse 3
      [.data ['r', '3', '\n', 'r', '1', '\n'], .data ['r', '2', '\n']]).outcome
      = .resolved "gamma" ∧
    (runCall demoParse 4
      [.timeoutFire, .data ['r', '1', '\n']]).outcome = .rejectedTimeout :=
  ⟨callTool_correlation.1 0 3,
   callTool_correlation.2.1 demoParse 1
     [.data ['r', '3', '\n', 'r', '1', '\n'], .data ['r', '2', '\n']]
     [.data ['r', '1', '\n']] (by decide),
   by decide, by decide, by decide, by decide⟩

/-! ## The listTools response path -/

inductive ListOutcome
  | pending
  | resolved (result : String)
  | rejectedError (msg : String)
  | rejectedParse
deriving DecidableEq

structure ListState where
  listening : Bool
  outcome : ListOutcome
deriving DecidableEq

/-- MCPClient.listTools responseHandler: it parses the whole data chunk
with no line buffering; a parse failure lands in the catch block, which
detaches the handler and rejects the pending call with the parse error; a
response carrying the call id completes the call; others are ignored. -/
def listToolsStep (parse : List Char → Option RpcResponse) (mid : Int)
    (st : ListState) (chunk : List Char) : ListState :=
  if st.listening = false then st
  else
    match parse chunk with
    | none => ⟨false, .rejectedParse⟩
    | some r =>
      if r.id = some mid then
        match r.error with
        | some m => ⟨false, .rejectedError (errMessageD "Failed to list tools" m)⟩
        | none => ⟨false, .resolved r.result⟩
      else st

theorem processLine_skip (parse : List Char → Option RpcResponse) (mid : Int)
    (st : CallState) (line : List Char)
    (h : parse line = none ∨ jsTrim line = []) :
    processLine parse mid st line = st := by
  unfold processLine
  split
  · rfl
  · split
    · rfl
    · rename_i hblank
      rcases h with hn | hb
      · rw [hn]
      · exact absurd hb hblank

/-- Claim C2: the claim asserts that a malformed line never rejects any
pending call on either response path.  That is refuted on the listTools
path: a chunk that fails to parse is caught and rejects the pending
listTools call. -/
theorem malformed_line_counterexample :
    listToolsStep demoParse 1 ⟨true, .pending⟩ ['o', 'o', 'p', 's']
      = ⟨false, .rejectedParse⟩ ∧
    ListOutcome.rejectedParse ≠ ListOutcome.pending := by
  exact ⟨by decide, by simp⟩

/-- Claim C2 (amended): on the callTool path a malformed (or blank) line
is logged and skipped: it leaves the call state untouched, and a chunk of
such lines changes nothing but the line buffer, so the channel keeps
running and later lines are processed; on the listTools path, however, a
chunk that fails to parse rejects the pending call. -/
theorem malformed_line_skipped :
    (∀ (parse : List Char → Option RpcResponse) (mid : Int) (st : CallState)
       (line : List Char),
      parse line = none → processLine parse mid st line = st) ∧
    (∀ (parse : List Char → Option RpcResponse) (mid : Int) (st : CallState)
       (chunk : List Char),
      st.listening = true →
      (∀ l ∈ (splitNL (st.buffer ++ chunk)).dropLast,
        parse l = none ∨ jsTrim l = []) →
      processData parse mid st chunk
        = { st with buffer := (splitNL (st.buffer ++ chunk)).getLastD [] }) ∧
    (∀ (parse : List Char → Option RpcResponse) (mid : Int) (st : ListState)
       (chunk : List Char),
      st.listening = true → parse chunk = none →
      listToolsStep parse mid st chunk = ⟨false, .rejectedParse⟩) := by
  refine ⟨?_, ?_, ?_⟩
  · intro parse mid st line hn
    exact processLine_skip parse mid st line (Or.inl hn)
  · intro parse mid st chunk hl hskip
    unfold processData
    rw [if_neg (by rw [hl]; simp)]
    have key : ∀ (lines : List (List Char)) (s : CallState),
        (∀ l ∈ lines, parse l = none ∨ jsTrim l = []) →
        lines.foldl (processLine parse mid) s = s := by
      intro lines
      induction lines with
      | nil => intro s _; rfl
      | cons l ls ih =>
        intro s hall
        rw [List.foldl_cons, processLine_skip parse mid s l (hall l (by simp)),
          ih s (fun x hx => hall x (by simp [hx]))]
    exact key _ _ hskip
  · intro parse mid st chunk hl hn
    unfold listToolsStep
    rw [if_neg (by rw [hl]; simp), hn]

theorem malformed_line_skipped_witness :
    processLine demoParse 1 initCallState ['z'] = initCallState ∧
    processData demoParse 1 initCallState ['z', '\n', 'r']
      = { initCallState with buffer := ['r'] } ∧
    listToolsStep demoParse 1 ⟨true, .pending⟩ ['z'] = ⟨false, .rejectedParse⟩ := by
  refine ⟨malformed_line_skipped.1 demoParse 1 initCallState ['z'] (by decide),
    ?_, malformed_line_skipped.2.2 demoParse 1 ⟨true, .pending⟩ ['z'] rfl (by decide)⟩
  have h := malformed_line_skipped.2.1 demoParse 1 initCallState
    ['z', '\n', 'r'] rfl (by decide)
  simpa using h

theorem chunkText_of_short (text : List Char) (chunkSize overlap : Nat)
    (hcs : 0 < chunkSize) (hshort : text.length ≤ chunkSize) :
    chunkText text chunkSize overlap hcs = [text] := by
  unfold chunkText
  rw [if_pos hshort]

/-- Claim C6: for a text of length at most chunkSize the chunker is claimed
to return exactly one chunk equal to the trimmed input, and an empty
sequence for the empty text.  Both parts fail on the code: the short path
returns the untrimmed input as a single chunk, and the empty text yields
the one-element sequence holding the empty chunk. -/
theorem chunkText_short_counterexample :
    chunkText [] 1000 200 (by norm_num) = [[]] ∧
    ([[]] : List (List Char)) ≠ [] ∧
    chunkText [' ', 'a', ' '] 1000 200 (by norm_num) = [[' ', 'a', ' ']] ∧
    jsTrim [' ', 'a', ' '] ≠ [' ', 'a', ' '] := by
  refine ⟨rfl, by simp, rfl, by decide⟩

/-- Claim C6 (amended): for every text whose length is at most chunkSize,
the chunker returns exactly one chunk and that chunk is the input text
itself, untrimmed; in particular the empty text yields the one-element
sequence containing the empty chunk, not an empty sequence. -/
theorem chunkText_short_returns_input (text : List Char) (chunkSize overlap : Nat)
    (hcs : 0 < chunkSize) (hshort : text.length ≤ chunkSize) :
    chunkText text chunkSize overlap hcs = [text] :=
  chunkText_of_short text chunkSize overlap hcs hshort

theorem chunkText_short_returns_input_witness :
    chunkText ['a'] 5 2 (by norm_num) = [['a']] :=
  chunkText_short_returns_input ['a'] 5 2 (by norm_num) (by decide)

/-- Claim C7: for every text, every positive chunkSize, and every overlap
value (including overlap at least chunkSize), one iteration of the
windowing loop strictly increases the window start, so the remaining-text
measure strictly decreases and the chunker terminates. -/
theorem chunkText_progress (text : List Char) (chunkSize overlap start : Nat)
    (hcs : 0 < chunkSize) (hstart : start < text.length) :
    start < chunkNextStart text chunkSize overlap start ∧
    text.length - chunkNextStart text chunkSize overlap start
      < text.length - start := by
  have := chunkNextStart_gt_start text chunkSize overlap start hcs hstart
  omega

theorem chunkText_progress_witness :
    0 < chunkNextStart ['a', 'b', 'c', 'd', 'e', 'f'] 3 5 0 :=
  (chunkText_progress ['a', 'b', 'c', 'd', 'e', 'f'] 3 5 0 (by norm_num)
    (by decide)).1

end Padalayai
